import Mathlib

/-
Verification development for the treelang repository: the tree data model,
the memoized evaluator, the parser/serializer, the dynamic tool compiler
and the tool-invocation boundary. The implementation module of the
repository is not part of the source snapshot, so the definitions below are
modelled from the specification document and from the concrete trees,
wire renderings and results recorded in the cookbook notebooks.
-/

namespace Treelang

/-- Modelled from the spec: the JSON-representable runtime values handled by
the evaluator (section 6), parametrized by the scalar number type. A Lambda
evaluates to a closure value that records its parameter names and the arena
id of its body. -/
inductive Val (α : Type) where
| scalar (a : α)
| bool (b : Bool)
| str (s : String)
| arr (elems : List (Val α))
| closure (params : List String) (body : Nat)

/-- Modelled from the spec: the eight node kinds of the tree data model
(section 3), with parents holding arena ids of their children (section 9).
A Value leaf with no literal is an unbound parameter placeholder. -/
inductive Node (α : Type) where
| value (name : String) (val : Option (Val α))
| func (name : String) (args : List Nat)
| lam (params : List String) (body : Nat)
| nmap (fn it : Nat)
| nfilter (fn it : Nat)
| nreduce (fn it init : Nat)
| cond (pred conseq alt : Nat)
| program (body : List Nat)

/-- Modelled from the spec: a tree is an arena of nodes addressed by stable
ids, plus a root id (sections 3 and 9). A node may be referenced by more
than one parent, which represents a shared subexpression. -/
structure Arena (α : Type) where
  nodes : List (Nat × Node α)
  root : Nat

/-- Modelled from the spec: the tool-invocation boundary consumed by the
evaluator (section 6), together with the zero test used by the truthiness
coercion of section 4.3. A call returning none is a tool failure. -/
structure Boundary (α : Type) where
  call : String → List (Val α) → Option (Val α)
  isZero : α → Bool

/-- One record in the call-counting log of tool invocations made during an
evaluation pass. -/
structure ToolCall (α : Type) where
  name : String
  args : List (Val α)

/-- Modelled from the spec: the error taxonomy of the evaluator
(section 7); every error carries the offending node id. -/
inductive EvalErr where
| unbound (name : String) (id : Nat)
| toolFail (name : String) (id : Nat)
| badShape (id : Nat)
| fuel

/-- Truthiness coercion of section 4.3: zero, empty and the false literal
are false, everything else is true. -/
def Val.truthy (isZero : α → Bool) : Val α → Bool
| .scalar a => !(isZero a)
| .bool b => b
| .str s => !(s.isEmpty)
| .arr l => !(l.isEmpty)
| .closure _ _ => true

/-- Result of one memoized evaluation step: the value, the memo cache after
the step, and the log of tool invocations the step performed. -/
structure MRes (α : Type) where
  val : Val α
  memo : List (Nat × Val α)
  log : List (ToolCall α)

/-- Result of evaluating a list of sibling nodes left to right. -/
structure MListRes (α : Type) where
  vals : List (Val α)
  memo : List (Nat × Val α)
  log : List (ToolCall α)

/-- Resolve a tool-call outcome: a missing result is a tool failure. -/
def asCall (name : String) (id : Nat) : Option (Val α) → Except EvalErr (Val α)
| some v => .ok v
| none => .error (.toolFail name id)

/-- Require a unary closure value, as Map and Filter do. -/
def asClosure1 (id : Nat) : Val α → Except EvalErr (String × Nat)
| .closure [p] body => .ok (p, body)
| _ => .error (.badShape id)

/-- Require a binary closure value, as Reduce does. -/
def asClosure2 (id : Nat) : Val α → Except EvalErr (String × String × Nat)
| .closure [p, q] body => .ok (p, q, body)
| _ => .error (.badShape id)

/-- Require a sequence value, as the iterable of Map, Filter and Reduce. -/
def asArr (id : Nat) : Val α → Except EvalErr (List (Val α))
| .arr elems => .ok elems
| _ => .error (.badShape id)

/-- The last statement value of a Program body. -/
def asLast (id : Nat) (vs : List (Val α)) : Except EvalErr (Val α) :=
  match vs.getLast? with
  | some v => .ok v
  | none => .error (.badShape id)

/-- Left-to-right evaluation of a list of sibling nodes by the supplied
one-node evaluator, threading the memo cache and concatenating call logs. -/
def mlist (ev : Nat → List (Nat × Val α) → Except EvalErr (MRes α)) :
    List Nat → List (Nat × Val α) → Except EvalErr (MListRes α)
| [], m => .ok ⟨[], m, []⟩
| i :: is, m => do
  let r ← ev i m
  let rs ← mlist ev is r.memo
  .ok ⟨r.val :: rs.vals, rs.memo, r.log ++ rs.log⟩

/-- Element-wise application for Map: apply the closure to each element in
input order and collect the results and call logs. -/
def mapp (app : Val α → Except EvalErr (MRes α)) :
    List (Val α) → Except EvalErr (List (Val α) × List (ToolCall α))
| [] => .ok ([], [])
| e :: es => do
  let r ← app e
  let rs ← mapp app es
  .ok (r.val :: rs.1, r.log ++ rs.2)

/-- Element-wise application for Filter: keep, in input order, the elements
on which the predicate closure evaluates truthy. -/
def mkeep (app : Val α → Except EvalErr (MRes α)) (tv : Val α → Bool) :
    List (Val α) → Except EvalErr (List (Val α) × List (ToolCall α))
| [] => .ok ([], [])
| e :: es => do
  let r ← app e
  let rs ← mkeep app tv es
  .ok ((if tv r.val then e :: rs.1 else rs.1), r.log ++ rs.2)

/-- Left fold for Reduce: apply the binary closure to the accumulator and
each element in turn. -/
def mfold (app2 : Val α → Val α → Except EvalErr (MRes α)) :
    Val α → List (Val α) → Except EvalErr (Val α × List (ToolCall α))
| acc, [] => .ok (acc, [])
| acc, e :: es => do
  let r ← app2 acc e
  let rs ← mfold app2 r.val es
  .ok (rs.1, r.log ++ rs.2)

/-- Evaluation of a single uncached node by kind (section 4.3), with child
evaluation delegated to the supplied evaluator. Function parameters are
evaluated left to right; a Conditional evaluates its predicate and then
exactly one branch, never the other; Map, Filter and Reduce apply a closure
element-wise with a fresh sub-cache per application so each element is
recomputed; a Program yields the value of its last statement. -/
def mevalCore (ev : List (String × Val α) → Nat → List (Nat × Val α) → Except EvalErr (MRes α))
    (B : Boundary α) (env : List (String × Val α)) (id : Nat) (n : Node α)
    (m : List (Nat × Val α)) : Except EvalErr (MRes α) :=
  match n with
  | .value name val =>
    match val with
    | some v => .ok ⟨v, m, []⟩
    | none =>
      match env.lookup name with
      | some v => .ok ⟨v, m, []⟩
      | none => .error (.unbound name id)
  | .func name args => do
    let rs ← mlist (fun i mm => ev env i mm) args m
    let v ← asCall name id (B.call name rs.vals)
    .ok ⟨v, rs.memo, rs.log ++ [⟨name, rs.vals⟩]⟩
  | .lam ps body => .ok ⟨.closure ps body, m, []⟩
  | .nmap fn it => do
    let r1 ← ev env fn m
    let pb ← asClosure1 id r1.val
    let r2 ← ev env it r1.memo
    let elems ← asArr id r2.val
    let rs ← mapp (fun e => ev [(pb.1, e)] pb.2 []) elems
    .ok ⟨.arr rs.1, r2.memo, r1.log ++ r2.log ++ rs.2⟩
  | .nfilter fn it => do
    let r1 ← ev env fn m
    let pb ← asClosure1 id r1.val
    let r2 ← ev env it r1.memo
    let elems ← asArr id r2.val
    let rs ← mkeep (fun e => ev [(pb.1, e)] pb.2 []) (Val.truthy B.isZero) elems
    .ok ⟨.arr rs.1, r2.memo, r1.log ++ r2.log ++ rs.2⟩
  | .nreduce fn it init => do
    let r1 ← ev env fn m
    let pq ← asClosure2 id r1.val
    let r2 ← ev env it r1.memo
    let elems ← asArr id r2.val
    let r3 ← ev env init r2.memo
    let rs ← mfold (fun a e => ev [(pq.1, a), (pq.2.1, e)] pq.2.2 []) r3.val elems
    .ok ⟨rs.1, r3.memo, r1.log ++ r2.log ++ r3.log ++ rs.2⟩
  | .cond p c a => do
    let r1 ← ev env p m
    if r1.val.truthy B.isZero then do
      let r2 ← ev env c r1.memo
      .ok ⟨r2.val, r2.memo, r1.log ++ r2.log⟩
    else do
      let r2 ← ev env a r1.memo
      .ok ⟨r2.val, r2.memo, r1.log ++ r2.log⟩
  | .program body =>
    match body with
    | [] => .error (.badShape id)
    | _ => do
      let rs ← mlist (fun i mm => ev env i mm) body m
      let v ← asLast id rs.vals
      .ok ⟨v, rs.memo, rs.log⟩

/-- Modelled from the spec: the memoized evaluator (section 4.3). The memo
cache is keyed on node identity: a cache hit returns the stored value with
no tool invocation and no change to the cache; otherwise the node is
computed once by mevalCore and its result is stored under the node id.
Fuel bounds the recursion depth. -/
def meval : Nat → Arena α → Boundary α → List (String × Val α) → Nat →
    List (Nat × Val α) → Except EvalErr (MRes α)
| 0, _, _, _, _, _ => .error .fuel
| f + 1, t, B, env, id, m =>
  match m.lookup id with
  | some v => .ok ⟨v, m, []⟩
  | none =>
    match t.nodes.lookup id with
    | none => .error (.badShape id)
    | some n =>
      (mevalCore (fun env2 i mm => meval f t B env2 i mm) B env id n m).map
        (fun r => ⟨r.val, (id, r.val) :: r.memo, r.log⟩)

/-- Modelled from the spec: one evaluation pass over a tree (section 4.3).
Every pass starts from a fresh, empty memo cache and an empty call log; the
fuel bound suffices for any acyclic arena because no reference chain can
revisit a node id. Returns the final value and the tool-invocation log. -/
def evaluate (t : Arena α) (B : Boundary α) : Except EvalErr (Val α × List (ToolCall α)) :=
  (meval (t.nodes.length + 1) t B [] t.root []).map (fun r => (r.val, r.log))

/-- Exact natural square root by bounded search: returns the k with
k * k = n when n is a perfect square, and nothing otherwise. -/
def exactSqrt (n : Nat) : Option Nat :=
  ((List.range (n + 1)).find? (fun k => k * k == n))

/-- An exact fraction: numerator and positive denominator, kept normalized
by the arithmetic below. Exact rational arithmetic is the reference model
for the double-precision arithmetic of the calculator tools on the
integer-valued cookbook examples. -/
structure Frac where
  num : Int
  den : Nat

/-- Normalize a numerator/denominator pair by dividing out the gcd. -/
def Frac.norm (n : Int) (d : Nat) : Frac :=
  let g := n.natAbs.gcd d
  if g = 0 then ⟨0, 1⟩ else ⟨n / (g : Int), d / g⟩

instance : OfNat Frac k := ⟨⟨(k : Int), 1⟩⟩

def Frac.add (a b : Frac) : Frac :=
  Frac.norm (a.num * (b.den : Int) + b.num * (a.den : Int)) (a.den * b.den)

def Frac.sub (a b : Frac) : Frac :=
  Frac.norm (a.num * (b.den : Int) - b.num * (a.den : Int)) (a.den * b.den)

def Frac.mul (a b : Frac) : Frac :=
  Frac.norm (a.num * b.num) (a.den * b.den)

def Frac.div (a b : Frac) : Frac :=
  Frac.norm ((if b.num < 0 then -a.num else a.num) * (b.den : Int)) (a.den * b.num.natAbs)

def Frac.pow (a : Frac) (k : Nat) : Frac :=
  Frac.norm (a.num ^ k) (a.den ^ k)

def Frac.blt (a b : Frac) : Bool :=
  a.num * (b.den : Int) < b.num * (a.den : Int)

def Frac.isZero (a : Frac) : Bool :=
  a.num == 0

/-- Modelled from the spec: the calculator tool set served by the cookbook
MCP server (cookbook/calculator.ipynb; calculator.py itself is not in the
snapshot), in exact fraction arithmetic: add, subtract, multiply, divide,
power (natural exponents), sqrt (exact on perfect squares) and
greater_than. -/
def calcQ : Boundary Frac where
  call name args :=
    match name, args with
    | "add", [.scalar a, .scalar b] => some (.scalar (a.add b))
    | "subtract", [.scalar a, .scalar b] => some (.scalar (a.sub b))
    | "multiply", [.scalar a, .scalar b] => some (.scalar (a.mul b))
    | "divide", [.scalar a, .scalar b] =>
      if b.num == 0 then none else some (.scalar (a.div b))
    | "power", [.scalar a, .scalar b] =>
      if b.den == 1 && decide (0 ≤ b.num) then some (.scalar (a.pow b.num.toNat)) else none
    | "sqrt", [.scalar a] =>
      if a.den == 1 && decide (0 ≤ a.num) then
        match exactSqrt a.num.toNat with
        | some k => some (.scalar ⟨(k : Int), 1⟩)
        | none => none
      else none
    | "greater_than", [.scalar a, .scalar b] => some (.bool (b.blt a))
    | _, _ => none
  isZero := Frac.isZero

/-- Transcribed from cookbook/calculator.ipynb: the conditional tree for
the query about ( 50 - 8 ) / 2 + sqrt( 64 ) * 3^2 capped at 100, built as
the spec describes it in section 8: the arithmetic subexpression is one
shared node (id 12) referenced both under the predicate and as the
alternate branch. -/
def condTree : Arena Frac where
  nodes :=
    [ (1, .value ("a") (some (.scalar 50)))
    , (2, .value ("b") (some (.scalar 8)))
    , (3, .func ("subtract") [1, 2])
    , (4, .value ("b") (some (.scalar 2)))
    , (5, .func ("divide") [3, 4])
    , (6, .value ("a") (some (.scalar 64)))
    , (7, .func ("sqrt") [6])
    , (8, .value ("a") (some (.scalar 3)))
    , (9, .value ("b") (some (.scalar 2)))
    , (10, .func ("power") [8, 9])
    , (11, .func ("multiply") [7, 10])
    , (12, .func ("add") [5, 11])
    , (13, .value ("b") (some (.scalar 100)))
    , (14, .func ("greater_than") [12, 13])
    , (15, .value ("result") (some (.scalar 100)))
    , (16, .cond 14 15 12) ]
  root := 16

/-- The tool-invocation log produced by one evaluation pass over the
conditional tree: each of the seven calculator tools is invoked exactly
once, because the shared subexpression (node 12) is memoized when the
alternate branch is taken. -/
def condTreeLog : List (ToolCall Frac) :=
  [ ⟨"subtract", [.scalar 50, .scalar 8]⟩
  , ⟨"divide", [.scalar 42, .scalar 2]⟩
  , ⟨"sqrt", [.scalar 64]⟩
  , ⟨"power", [.scalar 3, .scalar 2]⟩
  , ⟨"multiply", [.scalar 8, .scalar 9]⟩
  , ⟨"add", [.scalar 21, .scalar 72]⟩
  , ⟨"greater_than", [.scalar 93, .scalar 100]⟩ ]

/-- C1: evaluating the section-8 conditional tree (predicate
greater_than(add(divide(subtract(50,8),2), multiply(sqrt(64), power(3,2))),
100), consequent the literal 100, alternate the shared arithmetic
subexpression) against the call-counting calculator boundary invokes each
of subtract, divide, sqrt, power, multiply, add and greater_than exactly
once — the subtree shared between predicate and alternate is served from
the memo cache — returns 93, and performs no tool call besides those seven;
in particular none belonging only to the untaken literal-100 branch. -/
theorem c1_conditional_shared_memoized :
    evaluate condTree calcQ = .ok (.scalar 93, condTreeLog) ∧
    condTreeLog.map (fun c => c.name) =
      [("subtract"), ("divide"), ("sqrt"), ("power"), ("multiply"), ("add"), ("greater_than")] :=
  ⟨rfl, rfl⟩

/-- If mapping a function over an Except value yields a success, the
underlying value was a success and the result is its image. -/
theorem except_map_ok {ε β γ : Type} {e : Except ε β} {g : β → γ} {r : γ}
    (h : Except.map g e = .ok r) : ∃ x, e = .ok x ∧ r = g x := by
  cases e with
  | error err => simp [Except.map] at h
  | ok x =>
    simp [Except.map] at h
    exact ⟨x, rfl, h.symm⟩

/-- C2: a node reachable from more than one parent is evaluated at most
once per pass: once a result for a node id is in the memo cache, a
reference to that id returns the cached value, leaves the cache unchanged
and performs no tool invocation (empty call log); and every successful
evaluation of a node stores its result in the cache under the node id, so
later references hit the cache. -/
theorem c2_shared_node_memoized :
    (∀ (α : Type) (f : Nat) (t : Arena α) (B : Boundary α) env id v m,
      m.lookup id = some v → meval (f + 1) t B env id m = .ok ⟨v, m, []⟩) ∧
    (∀ (α : Type) (f : Nat) (t : Arena α) (B : Boundary α) env id m r,
      meval f t B env id m = .ok r → r.memo.lookup id = some r.val) := by
  constructor
  · intro α f t B env id v m h
    simp [meval, h]
  · intro α f t B env id m r h
    cases f with
    | zero => simp [meval] at h
    | succ f =>
      simp only [meval] at h
      split at h
      · rename_i v hv
        cases h
        simpa using hv
      · split at h
        · cases h
        · rename_i n hn
          obtain ⟨x, hx, hr⟩ := except_map_ok h
          subst hr
          simp [List.lookup]

/-- The memo cache at the end of one evaluation pass over the conditional
tree: every evaluated node id maps to its value, most recent first; the
untaken consequent (node 15) is absent. -/
def condTreeMemo : List (Nat × Val Frac) :=
  [ (16, .scalar 93), (14, .bool false), (13, .scalar 100), (12, .scalar 93)
  , (11, .scalar 72), (10, .scalar 9), (9, .scalar 2), (8, .scalar 3)
  , (7, .scalar 8), (6, .scalar 64), (5, .scalar 21), (4, .scalar 2)
  , (3, .scalar 42), (2, .scalar 8), (1, .scalar 50) ]

/-- Witness for C2 at concrete inputs: a cache hit on the shared node 12 of
the conditional tree returns the cached value with no tool call, and a full
evaluation of the tree stores the root result in the cache. -/
theorem c2_witness :
    meval 1 condTree calcQ [] 12 [(12, Val.scalar 93)] =
      .ok ⟨Val.scalar 93, [(12, Val.scalar 93)], []⟩ ∧
    condTreeMemo.lookup 16 = some (Val.scalar 93) := by
  constructor
  · exact c2_shared_node_memoized.1 Frac 0 condTree calcQ [] 12 (Val.scalar 93)
      [(12, Val.scalar 93)] rfl
  · exact c2_shared_node_memoized.2 Frac 17 condTree calcQ [] 16 []
      ⟨Val.scalar 93, condTreeMemo, condTreeLog⟩ rfl

/-- Modelled from the spec: the ParseError taxonomy of section 7 — unknown
tag, unknown operation, missing required child, arity mismatch and cyclic
reference (also raised on fuel exhaustion, which on a wire mapping of n
objects can only happen when a reference chain repeats an identity). -/
inductive ParseErr where
| unknownTag (tag : String) (id : Nat)
| unknownOp (name : String) (id : Nat)
| missingChild (id : Nat)
| arityMismatch (id : Nat)
| cyclic

/-- Modelled from the spec: one object of the wire-format tree description
(sections 4.2 and 6): a type discriminator selects the node kind; the
object carries the semantic name (operation or leaf name), the lambda
parameter names, the leaf literal, and the ordered child references. Keys
double as node identities, so children are identities of other objects. -/
structure WNode (α : Type) where
  typ : String
  name : String
  params : List String
  lit : Option (Val α)
  kids : List Nat

/-- Modelled from the spec: a wire-format tree description — a mapping from
identities to wire objects plus the root identity (section 4.2). -/
structure Wire (α : Type) where
  objs : List (Nat × WNode α)
  root : Nat

/-- Wire object for one in-memory node, with the type discriminators of
section 6. -/
def nodeToW : Node α → WNode α
| .value n v => ⟨("value"), n, [], v, []⟩
| .func n args => ⟨("function"), n, [], none, args⟩
| .lam ps b => ⟨("lambda"), (""), ps, none, [b]⟩
| .nmap fn it => ⟨("map"), (""), [], none, [fn, it]⟩
| .nfilter fn it => ⟨("filter"), (""), [], none, [fn, it]⟩
| .nreduce fn it init => ⟨("reduce"), (""), [], none, [fn, it, init]⟩
| .cond p c a => ⟨("conditional"), (""), [], none, [p, c, a]⟩
| .program body => ⟨("program"), (""), [], none, body⟩

/-- Modelled from the spec: serialize a tree to the wire format
(section 4.2), preserving identities and declared child order. -/
def serialize (t : Arena α) : Wire α :=
  ⟨t.nodes.map (fun x => (x.1, nodeToW x.2)), t.root⟩

/-- In-memory node for one wire object; none when the type tag is unknown
or the children do not fit the kind. -/
def wToNode (w : WNode α) : Option (Node α) :=
  match w.typ, w.kids with
  | "value", [] => some (.value w.name w.lit)
  | "function", ks => some (.func w.name ks)
  | "lambda", [b] => some (.lam w.params b)
  | "map", [fn, it] => some (.nmap fn it)
  | "filter", [fn, it] => some (.nfilter fn it)
  | "reduce", [fn, it, init] => some (.nreduce fn it init)
  | "conditional", [p, c, a] => some (.cond p c a)
  | "program", ks => some (.program ks)
  | _, _ => none

/-- Arity of the lambda node an arena id resolves to, if any. -/
def lamArity (t : Arena α) (id : Nat) : Option Nat :=
  match t.nodes.lookup id with
  | some (.lam ps _) => some ps.length
  | _ => none

/-- Arity of the lambda wire object an identity resolves to, if any. -/
def wLamArity (w : Wire α) (id : Nat) : Option Nat :=
  match w.objs.lookup id with
  | some wn => match wn.typ with
    | "lambda" => some wn.params.length
    | _ => none
  | none => none

/-- Conjunction of a check over a list of child identities. -/
def nodesAll (ck : Nat → Bool) : List Nat → Bool
| [] => true
| i :: is => ck i && nodesAll ck is

/-- A valid tree (section 4.1): every reachable reference resolves, the
reference graph unwinds within the fuel bound (acyclicity), function
operations are known, Map and Filter take a unary lambda, Reduce a binary
one, and a Program body is nonempty. -/
def checkA (ops : List String) : Nat → Arena α → Nat → Bool
| 0, _, _ => false
| f + 1, t, id =>
  match t.nodes.lookup id with
  | none => false
  | some n =>
    match n with
    | .value _ _ => true
    | .func name args => decide (name ∈ ops) && nodesAll (fun i => checkA ops f t i) args
    | .lam _ b => checkA ops f t b
    | .nmap fn it => (lamArity t fn == some 1) && checkA ops f t fn && checkA ops f t it
    | .nfilter fn it => (lamArity t fn == some 1) && checkA ops f t fn && checkA ops f t it
    | .nreduce fn it init =>
      (lamArity t fn == some 2) && checkA ops f t fn && checkA ops f t it && checkA ops f t init
    | .cond p c a => checkA ops f t p && checkA ops f t c && checkA ops f t a
    | .program body => !body.isEmpty && nodesAll (fun i => checkA ops f t i) body

/-- Sequencing of a parse check over a list of child identities. -/
def plist (pk : Nat → Except ParseErr Unit) : List Nat → Except ParseErr Unit
| [] => .ok ()
| i :: is => do
  pk i
  plist pk is

/-- Modelled from the spec: the recursive validation pass of the parser
(section 4.2): resolve the identity, discriminate on the type tag, check
required children and lambda arities, and recurse on the ordered children.
Fuel exhaustion reports a cyclic reference. -/
def parseRec (ops : List String) : Nat → Wire α → Nat → Except ParseErr Unit
| 0, _, _ => .error .cyclic
| f + 1, w, id =>
  match w.objs.lookup id with
  | none => .error (.missingChild id)
  | some wn =>
    match wn.typ with
    | "value" => if wn.kids.isEmpty then .ok () else .error (.arityMismatch id)
    | "function" =>
      if wn.name ∈ ops then plist (fun i => parseRec ops f w i) wn.kids
      else .error (.unknownOp wn.name id)
    | "lambda" =>
      match wn.kids with
      | [b] => parseRec ops f w b
      | _ => .error (.arityMismatch id)
    | "map" =>
      match wn.kids with
      | [fn, it] =>
        if wLamArity w fn == some 1 then do
          parseRec ops f w fn
          parseRec ops f w it
        else .error (.arityMismatch id)
      | _ => .error (.arityMismatch id)
    | "filter" =>
      match wn.kids with
      | [fn, it] =>
        if wLamArity w fn == some 1 then do
          parseRec ops f w fn
          parseRec ops f w it
        else .error (.arityMismatch id)
      | _ => .error (.arityMismatch id)
    | "reduce" =>
      match wn.kids with
      | [fn, it, init] =>
        if wLamArity w fn == some 2 then do
          parseRec ops f w fn
          parseRec ops f w it
          parseRec ops f w init
        else .error (.arityMismatch id)
      | _ => .error (.arityMismatch id)
    | "conditional" =>
      match wn.kids with
      | [p, c, a] => do
        parseRec ops f w p
        parseRec ops f w c
        parseRec ops f w a
      | _ => .error (.arityMismatch id)
    | "program" =>
      if wn.kids.isEmpty then .error (.arityMismatch id)
      else plist (fun i => parseRec ops f w i) wn.kids
    | _ => .error (.unknownTag wn.typ id)

/-- Rebuild the in-memory node list from the wire object list, preserving
identities and order; none when some object has an unknown tag or
ill-fitting children. -/
def convertObjs : List (Nat × WNode α) → Option (List (Nat × Node α))
| [] => some []
| x :: xs => do
  let n ← wToNode x.2
  let rest ← convertObjs xs
  some ((x.1, n) :: rest)

/-- Modelled from the spec: parse a wire-format description into the
in-memory tree (section 4.2): validate the reachable part from the root
(unknown tags or operations, missing children, arity mismatches and cycles
are ParseErrors), then rebuild the arena, preserving identities and
declared child order. -/
def parse (ops : List String) (w : Wire α) : Except ParseErr (Arena α) := do
  parseRec ops (w.objs.length + 1) w w.root
  match convertObjs w.objs with
  | some nodes => .ok ⟨nodes, w.root⟩
  | none => .error (.unknownTag ("") w.root)

/-- Looking up a key in a value-mapped association list maps the lookup. -/
theorem lookup_map_pair {β γ : Type} (g : β → γ) (l : List (Nat × β)) (id : Nat) :
    (l.map (fun x => (x.1, g x.2))).lookup id = (l.lookup id).map g := by
  induction l with
  | nil => rfl
  | cons x xs ih =>
    simp only [List.map_cons, List.lookup]
    cases id == x.1 <;> simp [ih]

/-- Converting a serialized node back to an in-memory node recovers it. -/
theorem wToNode_nodeToW (n : Node α) : wToNode (nodeToW n) = some n := by
  cases n <;> rfl

/-- Sequencing binds of successful Except computations reduces. -/
theorem except_bind_ok {ε β γ : Type} (x : β) (g : β → Except ε γ) :
    (Except.ok x >>= g) = g x := rfl

/-- Rebuilding the arena from a serialized object list recovers the nodes. -/
theorem convert_serialize (nodes : List (Nat × Node α)) :
    convertObjs (nodes.map (fun x => (x.1, nodeToW x.2))) = some nodes := by
  induction nodes with
  | nil => rfl
  | cons x xs ih => simp [convertObjs, wToNode_nodeToW, ih]

/-- Lambda arities are preserved by serialization. -/
theorem wLamArity_serialize (t : Arena α) (id : Nat) :
    wLamArity (serialize t) id = lamArity t id := by
  unfold wLamArity lamArity serialize
  rw [lookup_map_pair]
  cases h : t.nodes.lookup id with
  | none => rfl
  | some n => cases n <;> rfl

/-- If every child passing the tree check passes the parse check, a list of
children passing the tree check passes the sequenced parse check. -/
theorem plist_of_nodesAll (pk : Nat → Except ParseErr Unit) (ck : Nat → Bool)
    (hik : ∀ i, ck i = true → pk i = .ok ()) :
    ∀ ids, nodesAll ck ids = true → plist pk ids = .ok () := by
  intro ids
  induction ids with
  | nil => intro _; rfl
  | cons i is ih =>
    intro h
    simp only [nodesAll, Bool.and_eq_true] at h
    simp [plist, hik i h.1, ih h.2, except_bind_ok]

/-- A tree that passes the validity check serializes to a wire description
that passes the parser validation at the same fuel. -/
theorem parseRec_of_checkA (ops : List String) (t : Arena α) :
    ∀ f id, checkA ops f t id = true → parseRec ops f (serialize t) id = .ok () := by
  intro f
  induction f with
  | zero => intro id h; simp [checkA] at h
  | succ f ih =>
    intro id h
    rw [checkA] at h
    rw [parseRec]
    have hl : (serialize t).objs.lookup id = (t.nodes.lookup id).map nodeToW :=
      lookup_map_pair nodeToW t.nodes id
    rw [hl]
    cases hn : t.nodes.lookup id with
    | none => rw [hn] at h; simp at h
    | some n =>
      rw [hn] at h
      cases n with
      | value name v => simp [nodeToW]
      | func name args =>
        simp only [Bool.and_eq_true, decide_eq_true_eq] at h
        simp [nodeToW, h.1, plist_of_nodesAll _ _ ih _ h.2, except_bind_ok]
      | lam ps b => simp [nodeToW, ih b h]
      | nmap fn it =>
        simp only [Bool.and_eq_true] at h
        simp [nodeToW, wLamArity_serialize, h.1.1, ih fn h.1.2, ih it h.2, except_bind_ok]
      | nfilter fn it =>
        simp only [Bool.and_eq_true] at h
        simp [nodeToW, wLamArity_serialize, h.1.1, ih fn h.1.2, ih it h.2, except_bind_ok]
      | nreduce fn it init =>
        simp only [Bool.and_eq_true] at h
        simp [nodeToW, wLamArity_serialize, h.1.1.1, ih fn h.1.1.2, ih it h.1.2, ih init h.2, except_bind_ok]
      | cond p c a =>
        simp only [Bool.and_eq_true] at h
        simp [nodeToW, ih p h.1.1, ih c h.1.2, ih a h.2, except_bind_ok]
      | program body =>
        simp only [Bool.and_eq_true] at h
        cases body with
        | nil => simp [List.isEmpty] at h
        | cons b bs =>
          simp [nodeToW, List.isEmpty, plist_of_nodesAll _ _ ih _ h.2, except_bind_ok]

/-- C3: for every valid tree t, parsing the serialization of t succeeds and
returns t itself — identities, node kinds, child order and leaf values all
coincide, which is the structural-equivalence round-trip property. -/
theorem c3_parse_serialize_roundtrip (α : Type) (t : Arena α) (ops : List String)
    (h : checkA ops (t.nodes.length + 1) t t.root = true) :
    parse ops (serialize t) = .ok t := by
  have h1 : parseRec ops (t.nodes.length + 1) (serialize t) t.root = .ok () :=
    parseRec_of_checkA ops t _ _ h
  have hlen : (serialize t).objs.length = t.nodes.length := by
    simp [serialize]
  unfold parse
  rw [show (serialize t).root = t.root from rfl, hlen, h1]
  have h2 := convert_serialize t.nodes
  simp only [serialize]
  rw [except_bind_ok, h2]

/-- The operation names of the calculator tool catalog. -/
def opsCalc : List String :=
  [("add"), ("subtract"), ("multiply"), ("divide"), ("power"), ("sqrt"), ("greater_than")]

/-- Witness for C3: the conditional calculator tree is valid and parsing
its serialization returns it unchanged. -/
theorem c3_witness :
    checkA opsCalc (condTree.nodes.length + 1) condTree condTree.root = true ∧
    parse opsCalc (serialize condTree) = .ok condTree :=
  ⟨rfl, c3_parse_serialize_roundtrip Frac condTree opsCalc rfl⟩

/-- One reference step of a wire description: the object at identity a
lists b among its child references. -/
def RefStep (w : Wire α) (a b : Nat) : Prop :=
  ∃ wn, w.objs.lookup a = some wn ∧ b ∈ wn.kids

/-- A chain of reference steps from a to c through the listed identities. -/
inductive RefChain (w : Wire α) : Nat → List Nat → Nat → Prop where
| nil (a : Nat) : RefChain w a [] a
| cons {a b c : Nat} {l : List Nat} (h : RefStep w a b) (rest : RefChain w b l c) :
    RefChain w a (b :: l) c

/-- A wire description containing a self- or mutually-referential node
reachable from the root: some identity reachable from the root lies on a
nonempty reference cycle. -/
def HasReachableCycle (w : Wire α) : Prop :=
  ∃ id l1 l2, RefChain w w.root l1 id ∧ RefChain w id l2 id ∧ l2 ≠ []

/-- Reference chains compose. -/
theorem refChain_append {w : Wire α} {a b c : Nat} {l m : List Nat}
    (h1 : RefChain w a l b) (h2 : RefChain w b m c) : RefChain w a (l ++ m) c := by
  induction h1 with
  | nil => simpa using h2
  | cons hs _ ih => exact .cons hs (ih h2)

/-- A reference cycle can be pumped to chains of arbitrary length. -/
theorem refChain_pow {w : Wire α} {id : Nat} {l : List Nat} (h : RefChain w id l id) :
    ∀ n, ∃ m, RefChain w id m id ∧ m.length = n * l.length := by
  intro n
  induction n with
  | zero => exact ⟨[], .nil id, by simp⟩
  | succ n ih =>
    obtain ⟨m, hm, hlen⟩ := ih
    exact ⟨l ++ m, refChain_append h hm,
      by rw [List.length_append, hlen, Nat.succ_mul, Nat.add_comm]⟩

/-- A successful sequenced Except computation has both parts succeed. -/
theorem seq_ok {ε β : Type} {x : Except ε Unit} {k : Unit → Except ε β} {r : β}
    (h : (x >>= k) = .ok r) : x = .ok () ∧ k () = .ok r := by
  cases x with
  | error e => exact absurd h (by simp [Bind.bind, Except.bind])
  | ok v => cases v; exact ⟨rfl, h⟩

/-- All members of a successfully sequenced child list pass the check. -/
theorem plist_mem (pk : Nat → Except ParseErr Unit) :
    ∀ ids, plist pk ids = .ok () → ∀ b ∈ ids, pk b = .ok () := by
  intro ids
  induction ids with
  | nil =>
    intro _ b hb
    simp at hb
  | cons i is ih =>
    intro h b hb
    rw [plist] at h
    obtain ⟨h1, h2⟩ := seq_ok h
    rcases List.mem_cons.mp hb with hb | hb
    · exact hb ▸ h1
    · exact ih h2 b hb

/-- If the parser validation succeeds on a node at one more unit of fuel,
it succeeds on every child reference at the lower fuel. -/
theorem parseRec_kids (ops : List String) (w : Wire α) (f id : Nat) (wn : WNode α)
    (hw : w.objs.lookup id = some wn)
    (h : parseRec ops (f + 1) w id = .ok ()) :
    ∀ b ∈ wn.kids, parseRec ops f w b = .ok () := by
  intro b hb
  simp only [parseRec, hw] at h
  split at h
  · split at h
    · rename_i hke
      rw [List.isEmpty_iff.mp hke] at hb
      simp at hb
    · exact Except.noConfusion h
  · split at h
    · exact plist_mem _ _ h b hb
    · exact Except.noConfusion h
  · split at h
    · rename_i b0 hk
      rw [hk] at hb
      simp at hb
      exact hb ▸ h
    · exact Except.noConfusion h
  · split at h
    · rename_i fn it hk
      split at h
      · obtain ⟨h1, h2⟩ := seq_ok h
        rw [hk] at hb
        rcases (by simpa using hb : b = fn ∨ b = it) with hb | hb
        · exact hb ▸ h1
        · exact hb ▸ h2
      · exact Except.noConfusion h
    · exact Except.noConfusion h
  · split at h
    · rename_i fn it hk
      split at h
      · obtain ⟨h1, h2⟩ := seq_ok h
        rw [hk] at hb
        rcases (by simpa using hb : b = fn ∨ b = it) with hb | hb
        · exact hb ▸ h1
        · exact hb ▸ h2
      · exact Except.noConfusion h
    · exact Except.noConfusion h
  · split at h
    · rename_i fn it init hk
      split at h
      · obtain ⟨h1, h2⟩ := seq_ok h
        obtain ⟨h2, h3⟩ := seq_ok h2
        rw [hk] at hb
        rcases (by simpa using hb : b = fn ∨ b = it ∨ b = init) with hb | hb | hb
        · exact hb ▸ h1
        · exact hb ▸ h2
        · exact hb ▸ h3
      · exact Except.noConfusion h
    · exact Except.noConfusion h
  · split at h
    · rename_i p c a hk
      obtain ⟨h1, h2⟩ := seq_ok h
      obtain ⟨h2, h3⟩ := seq_ok h2
      rw [hk] at hb
      rcases (by simpa using hb : b = p ∨ b = c ∨ b = a) with hb | hb | hb
      · exact hb ▸ h1
      · exact hb ▸ h2
      · exact hb ▸ h3
    · exact Except.noConfusion h
  · split at h
    · exact Except.noConfusion h
    · exact plist_mem _ _ h b hb
  · exact Except.noConfusion h

/-- Fuel bounds the length of every reference chain out of a node the
parser validation accepts. -/
theorem parseRec_chain_bound (ops : List String) (w : Wire α) :
    ∀ f id, parseRec ops f w id = .ok () → ∀ l c, RefChain w id l c → l.length < f := by
  intro f
  induction f with
  | zero =>
    intro id h
    simp [parseRec] at h
  | succ f ih =>
    intro id h l c hc
    cases hc with
    | nil => simp
    | cons hs rest =>
      obtain ⟨wn, hw, hkid⟩ := hs
      have hb := parseRec_kids ops w f id wn hw h _ hkid
      have := ih _ hb _ _ rest
      simpa using Nat.succ_lt_succ this

/-- C7: a wire description with a self- or mutually-referential node
reachable from the root is rejected by parse with a ParseError; parse is a
total function, so it terminates on every input by construction. -/
theorem c7_cyclic_wire_parse_error (α : Type) (w : Wire α) (ops : List String)
    (h : HasReachableCycle w) : ∃ e, parse ops w = .error e := by
  cases hp : parse ops w with
  | error e => exact ⟨e, rfl⟩
  | ok t =>
    exfalso
    obtain ⟨id, l1, l2, hro, hcy, hne⟩ := h
    have hva : parseRec ops (w.objs.length + 1) w w.root = .ok () := by
      unfold parse at hp
      exact (seq_ok hp).1
    obtain ⟨m, hm, hlen⟩ := refChain_pow hcy (w.objs.length + 1)
    have hchain : RefChain w w.root (l1 ++ m) id := refChain_append hro hm
    have hb := parseRec_chain_bound ops w _ _ hva _ _ hchain
    rw [List.length_append, hlen] at hb
    have h2 : 1 ≤ l2.length := by
      cases l2 with
      | nil => exact absurd rfl hne
      | cons x xs => simp
    have h3 : w.objs.length + 1 ≤ (w.objs.length + 1) * l2.length :=
      Nat.le_mul_of_pos_right _ (by omega)
    omega

/-- A wire description whose single object references itself three times
over, as the three fields of a conditional. -/
def wCyc : Wire Frac :=
  ⟨[(0, ⟨("conditional"), (""), [], none, [0, 0, 0]⟩)], 0⟩

/-- Witness for C7: the self-referential wire description is rejected. -/
theorem c7_witness : ∃ e, parse opsCalc wCyc = .error e :=
  c7_cyclic_wire_parse_error Frac wCyc opsCalc
    ⟨0, [], [0], .nil 0,
      .cons ⟨⟨("conditional"), (""), [], none, [0, 0, 0]⟩, rfl, by simp⟩ (.nil 0),
      by simp⟩

/-- A nested JSON-like rendering: an object with string keys, or a leaf
literal rendered as an array of scalars. -/
inductive J (α : Type) where
| leafArr (vals : List (Val α))
| obj (fields : List (String × J α))

/-- Bump the per-operation counter used to build distinct numeric-suffix
keys for repeated operations of the same kind. -/
def bumpCount (op : String) (ctr : List (String × Nat)) : Nat × List (String × Nat) :=
  match ctr.lookup op with
  | some k => (k + 1, (op, k + 1) :: ctr)
  | none => (1, (op, 1) :: ctr)

/-- A leaf literal as the array the rendering emits: a scalar is wrapped in
a one-element array, an array literal is emitted as is. -/
def wrapVal : Val α → List (Val α)
| .arr l => l
| v => [v]

/-- Render an ordered child list, threading the operation counters. -/
def renderList (rk : Nat → List (String × Nat) → Option ((String × J α) × List (String × Nat))) :
    List Nat → List (String × Nat) → Option (List (String × J α) × List (String × Nat))
| [], ctr => some ([], ctr)
| i :: is, ctr => do
  let fj ← rk i ctr
  let rest ← renderList rk is fj.2
  some (fj.1 :: rest.1, rest.2)

/-- Modelled from the spec and the renderings printed in
cookbook/calculator.ipynb: the human-readable wire rendering emitted by
AST.repr (which is not in the snapshot). Every node becomes one key/value
field: a Value leaf keeps its semantic name as key and is rendered as an
array (scalars wrapped in a one-element array), and every operation or
construct node receives the key name_k where k counts prior renderings of
the same operation name, so repeated and re-rendered (shared) nodes get
distinct keys. Children are rendered inline in declared order, so the
rendering is a tree of nested objects with no way to express one node
shared by two parents. -/
def renderJ : Nat → Arena α → Nat → List (String × Nat) → Option ((String × J α) × List (String × Nat))
| 0, _, _, _ => none
| f + 1, t, id, ctr =>
  match t.nodes.lookup id with
  | none => none
  | some n =>
    match n with
    | .value name v =>
      match v with
      | some v0 => some ((name, .leafArr (wrapVal v0)), ctr)
      | none => some ((name, .leafArr []), ctr)
    | .func op args =>
      let bk := bumpCount op ctr
      (renderList (fun i c => renderJ f t i c) args bk.2).map
        (fun rest => ((op ++ ("_") ++ toString bk.1, .obj rest.1), rest.2))
    | .lam _ b =>
      let bk := bumpCount ("lambda") ctr
      (renderList (fun i c => renderJ f t i c) [b] bk.2).map
        (fun rest => ((("lambda_") ++ toString bk.1, .obj rest.1), rest.2))
    | .nmap fn it =>
      let bk := bumpCount ("map") ctr
      (renderList (fun i c => renderJ f t i c) [fn, it] bk.2).map
        (fun rest => ((("map_") ++ toString bk.1, .obj rest.1), rest.2))
    | .nfilter fn it =>
      let bk := bumpCount ("filter") ctr
      (renderList (fun i c => renderJ f t i c) [fn, it] bk.2).map
        (fun rest => ((("filter_") ++ toString bk.1, .obj rest.1), rest.2))
    | .nreduce fn it init =>
      let bk := bumpCount ("reduce") ctr
      (renderList (fun i c => renderJ f t i c) [fn, it, init] bk.2).map
        (fun rest => ((("reduce_") ++ toString bk.1, .obj rest.1), rest.2))
    | .cond p c a =>
      let bk := bumpCount ("conditional") ctr
      (renderList (fun i cc => renderJ f t i cc) [p, c, a] bk.2).map
        (fun rest => ((("conditional_") ++ toString bk.1, .obj rest.1), rest.2))
    | .program body =>
      let bk := bumpCount ("program") ctr
      (renderList (fun i c => renderJ f t i c) body bk.2).map
        (fun rest => ((("program_") ++ toString bk.1, .obj rest.1), rest.2))

/-- The rendering the system emits for a tree: the root field wrapped in a
top-level object, starting from empty operation counters. -/
def reprJ (t : Arena α) : Option (J α) :=
  (renderJ (t.nodes.length + 1) t t.root []).map (fun x => J.obj [x.1])

/-- The rendering of the conditional calculator tree exactly as printed in
cookbook/calculator.ipynb: the shared arithmetic subexpression appears
twice, once under the predicate with the _1 suffixes and once as the
alternate branch with the _2 suffixes, and every scalar leaf is wrapped in
a one-element array. -/
def jCond : J Frac :=
  .obj [(("conditional_1"), .obj
    [ (("greater_than_1"), .obj
        [ (("add_1"), .obj
            [ (("divide_1"), .obj
                [ (("subtract_1"), .obj
                    [ (("a"), .leafArr [.scalar 50]), (("b"), .leafArr [.scalar 8]) ])
                , (("b"), .leafArr [.scalar 2]) ])
            , (("multiply_1"), .obj
                [ (("sqrt_1"), .obj [ (("a"), .leafArr [.scalar 64]) ])
                , (("power_1"), .obj
                    [ (("a"), .leafArr [.scalar 3]), (("b"), .leafArr [.scalar 2]) ]) ]) ])
        , (("b"), .leafArr [.scalar 100]) ])
    , (("result"), .leafArr [.scalar 100])
    , (("add_2"), .obj
        [ (("divide_2"), .obj
            [ (("subtract_2"), .obj
                [ (("a"), .leafArr [.scalar 50]), (("b"), .leafArr [.scalar 8]) ])
            , (("b"), .leafArr [.scalar 2]) ])
        , (("multiply_2"), .obj
            [ (("sqrt_2"), .obj [ (("a"), .leafArr [.scalar 64]) ])
            , (("power_2"), .obj
                [ (("a"), .leafArr [.scalar 3]), (("b"), .leafArr [.scalar 2]) ]) ]) ]) ])]

/-- C10: the emitted rendering wraps every scalar leaf literal in a
one-element array (general law, last conjunct) and gives repeated
operations of the same kind distinct numeric-suffix keys; for the
conditional tree, whose node 12 is referenced both by the greater_than
predicate (node 14) and as the alternate of the conditional (node 16), the
one shared node is emitted twice as the two distinct identities add_1 and
add_2 (with subtract_1/subtract_2 and so on below them), exactly as the
notebook prints it — the nested rendering cannot express one node shared by
two parents. -/
theorem c10_repr_rendering :
    reprJ condTree = some jCond ∧
    condTree.nodes.lookup 14 = some (.func ("greater_than") [12, 13]) ∧
    condTree.nodes.lookup 16 = some (.cond 14 15 12) ∧
    (∀ (α : Type) (f : Nat) (t : Arena α) (id : Nat) (name : String) (a : α) ctr,
      t.nodes.lookup id = some (.value name (some (.scalar a))) →
      renderJ (f + 1) t id ctr = some ((name, .leafArr [.scalar a]), ctr)) := by
  refine ⟨rfl, rfl, rfl, ?_⟩
  intro α f t id name a ctr h
  simp [renderJ, h, wrapVal]

/-- Witness for C10: the scalar-wrapping law at the leaf 1 of the
conditional tree. -/
theorem c10_witness :
    renderJ 1 condTree 1 [] = some ((("a"), .leafArr [.scalar 50]), []) :=
  c10_repr_rendering.2.2.2 Frac 0 condTree 1 ("a") 50 [] rfl

/-- Modelled from the spec: the error the Tool Compiler raises when a
declared parameter cannot be bound (section 4.4). -/
inductive BindErr where
| bindingError (p : String)

/-- Identities of every Value leaf of the tree whose semantic name matches
the given parameter name. -/
def leavesNamed (t : Arena α) (p : String) : List Nat :=
  t.nodes.filterMap (fun x =>
    match x.2 with
    | .value n _ => if n = p then some x.1 else none
    | _ => none)

/-- The identity set a declared parameter binds to: the caller-supplied
per-identity override when present, otherwise all leaves sharing the
semantic name (section 4.4). -/
def resolveIds (t : Arena α) (ov : List (String × List Nat)) (p : String) : List Nat :=
  match ov.lookup p with
  | some ids => ids
  | none => leavesNamed t p

/-- Modelled from the spec: the result of the Tool Compiler — the original
tree and the binding table from declared parameter names to bound leaf
identity sets (section 4.4). -/
structure Compiled (α : Type) where
  tree : Arena α
  table : List (String × List Nat)

/-- Build the binding table; fails with a BindingError naming the first
declared parameter whose identity set is empty. -/
def mkTable (t : Arena α) (ov : List (String × List Nat)) :
    List String → Except BindErr (List (String × List Nat))
| [] => .ok []
| p :: ps =>
  match resolveIds t ov p with
  | [] => .error (.bindingError p)
  | ids => do
    let rest ← mkTable t ov ps
    .ok ((p, ids) :: rest)

/-- Modelled from the spec: the Tool Compiler (section 4.4). Builds the
binding table by identity set; fails with BindingError before any
evaluation when some declared parameter matches zero leaves. -/
def compile (t : Arena α) (ps : List String) (ov : List (String × List Nat)) :
    Except BindErr (Compiled α) :=
  (mkTable t ov ps).map (fun tb => ⟨t, tb⟩)

/-- The argument value destined for a leaf identity, if any: the first
table entry whose identity set contains the leaf selects its parameter,
and the invocation argument of that parameter is returned. -/
def bindLeaf (table : List (String × List Nat)) (args : List (String × Val α)) (id : Nat) :
    Option (Val α) :=
  table.findSome? (fun pi => if id ∈ pi.2 then args.lookup pi.1 else none)

/-- One node of the working copy: a Value leaf bound to an argument value
is overwritten with it; every other node is kept as is. -/
def bindNode (table : List (String × List Nat)) (args : List (String × Val α))
    (i : Nat) : Node α → Node α
| .value nm v =>
  match bindLeaf table args i with
  | some bv => .value nm (some bv)
  | none => .value nm v
| n0 => n0

/-- Modelled from the spec: the fresh working copy an invocation of the
compiled Callable operates on — the original tree with the matched leaves
overwritten by the invocation arguments (section 4.4). -/
def bindArgs (t : Arena α) (table : List (String × List Nat))
    (args : List (String × Val α)) : Arena α :=
  ⟨t.nodes.map (fun x => (x.1, bindNode table args x.1 x.2)), t.root⟩

/-- Modelled from the spec: one invocation of the Callable returned by the
Tool Compiler — build the fresh working copy from the original compiled
tree and run the Evaluator on it (section 4.4). -/
def invoke (c : Compiled α) (B : Boundary α) (args : List (String × Val α)) :
    Except EvalErr (Val α × List (ToolCall α)) :=
  evaluate (bindArgs c.tree c.table args) B

/-- Looking up a key in a key-aware value-mapped association list maps the
lookup through the function at that key. -/
theorem lookup_map_keyed {β γ : Type} (g : Nat → β → γ) (l : List (Nat × β)) (id : Nat) :
    (l.map (fun x => (x.1, g x.1 x.2))).lookup id = (l.lookup id).map (g id) := by
  induction l with
  | nil => rfl
  | cons x xs ih =>
    simp only [List.map_cons, List.lookup]
    by_cases hx : id = x.1
    · subst hx; simp
    · have hb : (id == x.1) = false := beq_eq_false_iff_ne.mpr hx
      simp [hb, ih]

/-- The regression tree for parameter-binding disambiguation: two distinct
Value leaves both named a (identities 1 and 4) under the unrelated Function
nodes multiply (3) and subtract (6), combined by add (7). -/
def treeReg : Arena Frac where
  nodes :=
    [ (1, .value ("a") none)
    , (2, .value ("b") (some (.scalar 3)))
    , (3, .func ("multiply") [1, 2])
    , (4, .value ("a") none)
    , (5, .value ("c") (some (.scalar 4)))
    , (6, .func ("subtract") [4, 5])
    , (7, .func ("add") [3, 6]) ]
  root := 7

/-- The per-identity override binding for the regression tree: parameter p1
is bound to leaf identity 1 only, parameter p2 to leaf identity 4 only. -/
def ovReg : List (String × List Nat) := [(("p1"), [1]), (("p2"), [4])]

/-- C4: compiling the regression tree with per-identity overrides routes
each supplied argument value only to the leaf identity it was bound to:
the value for p1 is written to leaf 1 and the value for p2 to leaf 4, never
crossed, and every other node of the working copy is unchanged; and
compiling any tree with a declared parameter name matching zero leaves
fails with BindingError — compile performs no evaluation at all, so the
failure precedes any evaluation. -/
theorem c4_binding_disambiguation :
    compile treeReg [("p1"), ("p2")] ovReg = .ok ⟨treeReg, ovReg⟩ ∧
    (∀ v w : Val Frac,
      (bindArgs treeReg ovReg [(("p1"), v), (("p2"), w)]).nodes.lookup 1
        = some (.value ("a") (some v)) ∧
      (bindArgs treeReg ovReg [(("p1"), v), (("p2"), w)]).nodes.lookup 4
        = some (.value ("a") (some w)) ∧
      (bindArgs treeReg ovReg [(("p1"), v), (("p2"), w)]).nodes.lookup 3
        = treeReg.nodes.lookup 3) ∧
    (∀ (β : Type) (t : Arena β) (p : String),
      leavesNamed t p = [] → compile t [p] [] = .error (.bindingError p)) := by
  refine ⟨rfl, fun v w => ⟨rfl, rfl, rfl⟩, ?_⟩
  intro β t p h
  simp [compile, mkTable, resolveIds, List.lookup, h, Except.map]

/-- Witness for C4: concrete argument values reach exactly their bound
leaves, and a parameter matching no leaf of the regression tree is
rejected. -/
theorem c4_witness :
    (bindArgs treeReg ovReg [(("p1"), .scalar 5), (("p2"), .scalar 7)]).nodes.lookup 1
      = some (.value ("a") (some (.scalar 5))) ∧
    compile treeReg [("q")] [] = .error (.bindingError ("q")) :=
  ⟨(c4_binding_disambiguation.2.1 (.scalar 5) (.scalar 7)).1,
   c4_binding_disambiguation.2.2 Frac treeReg ("q") rfl⟩

/-- C5: every invocation of the compiled Callable evaluates the fresh
working copy built from the original compiled tree and the arguments of
that invocation alone — so repeated invocations with different arguments
each see the original tree; the working copy differs from the original only
at the bound leaves: a node whose identity no argument is bound to is
identical in the copy, and a bound Value leaf is overwritten with exactly
the bound value. The original compiled tree is a value the invocation never
rebinds, which is the functional rendering of "never mutated". -/
theorem c5_invoke_fresh_copy :
    (∀ (β : Type) (c : Compiled β) (B : Boundary β) args,
      invoke c B args = evaluate (bindArgs c.tree c.table args) B) ∧
    (∀ (β : Type) (t : Arena β) table args id,
      bindLeaf table args id = none →
      (bindArgs t table args).nodes.lookup id = t.nodes.lookup id) ∧
    (∀ (β : Type) (t : Arena β) table args id nm ov0 v,
      t.nodes.lookup id = some (.value nm ov0) → bindLeaf table args id = some v →
      (bindArgs t table args).nodes.lookup id = some (.value nm (some v))) := by
  refine ⟨fun β c B args => rfl, ?_, ?_⟩
  · intro β t table args id hnone
    show (t.nodes.map (fun x => (x.1, bindNode table args x.1 x.2))).lookup id = _
    rw [lookup_map_keyed]
    cases ht : t.nodes.lookup id with
    | none => rfl
    | some n => cases n <;> simp [bindNode, hnone]
  · intro β t table args id nm ov0 v ht hsome
    show (t.nodes.map (fun x => (x.1, bindNode table args x.1 x.2))).lookup id = _
    rw [lookup_map_keyed, ht]
    simp [bindNode, hsome]

/-- Witness for C5: on the compiled regression tree, invocation factors
through the fresh working copy, an unbound node (the multiply at identity
3) is unchanged, and the bound leaf 1 is overwritten. -/
theorem c5_witness :
    invoke ⟨treeReg, ovReg⟩ calcQ [(("p1"), .scalar 5), (("p2"), .scalar 7)]
      = evaluate (bindArgs treeReg ovReg [(("p1"), .scalar 5), (("p2"), .scalar 7)]) calcQ ∧
    (bindArgs treeReg ovReg [(("p1"), .scalar 5), (("p2"), .scalar 7)]).nodes.lookup 3
      = treeReg.nodes.lookup 3 ∧
    (bindArgs treeReg ovReg [(("p1"), .scalar 5), (("p2"), .scalar 7)]).nodes.lookup 1
      = some (.value ("a") (some (.scalar 5))) :=
  ⟨c5_invoke_fresh_copy.1 Frac ⟨treeReg, ovReg⟩ calcQ [(("p1"), .scalar 5), (("p2"), .scalar 7)],
   c5_invoke_fresh_copy.2.1 Frac treeReg ovReg [(("p1"), .scalar 5), (("p2"), .scalar 7)] 3 rfl,
   c5_invoke_fresh_copy.2.2 Frac treeReg ovReg [(("p1"), .scalar 5), (("p2"), .scalar 7)] 1
     ("a") none (.scalar 5) rfl rfl⟩

/-- Modelled from the spec: the outcome of one tool invocation at the MCP
boundary — decoded JSON content, or the raw content passed through
unmodified as an opaque value (section 6; provider.py is not in the
snapshot, the behavior is fixed by the changelog entry for 0.7.1). -/
inductive ToolOut (α : Type) where
| json (v : Val α)
| raw (s : String)

/-- Modelled from the spec: errors the tool-invocation boundary may raise
(unknown tool, arity or type mismatch, transport failure — section 6). -/
inductive ToolInvocationErr where
| transport (msg : String)

/-- Modelled from the spec: the output handling of MCPToolProvider
call_tool — try to decode the textual tool output, and when it is not
decodable do not raise: return the content as is. -/
def callToolOut (decode : String → Option (Val α)) (content : String) :
    Except ToolInvocationErr (ToolOut α) :=
  match decode content with
  | some v => .ok (.json v)
  | none => .ok (.raw content)

/-- A stand-in decoder for JSON scalar outputs: accepts natural-number
literals only. -/
def decodeNum (s : String) : Option (Val Frac) :=
  if s.data.all Char.isDigit && !s.data.isEmpty then
    some (.scalar ⟨(s.data.foldl (fun acc c => acc * 10 + ((c.toNat : Int) - 48)) 0), 1⟩)
  else none

/-- C6: for every decoder and every tool output the decoder cannot decode,
the tool-invocation boundary does not raise: it returns the raw content
unmodified as an opaque value. -/
theorem c6_nondecodable_passthrough :
    ∀ (α : Type) (decode : String → Option (Val α)) (content : String),
    decode content = none →
    callToolOut decode content = .ok (.raw content) := by
  intro α decode content h
  simp [callToolOut, h]

/-- Witness for C6: a non-numeric output is not decodable by the stand-in
decoder and is passed through unmodified. -/
theorem c6_witness :
    decodeNum ("not json") = none ∧
    callToolOut decodeNum ("not json") = .ok (.raw ("not json")) :=
  ⟨rfl, c6_nondecodable_passthrough Frac decodeNum ("not json") rfl⟩

/-- Modelled from the spec: the calculator tools under idealized
real-number semantics, used for the numerical claim. On the claimed inputs
the double-precision results of the concrete tools differ from the real
values by far less than the stated tolerance. -/
noncomputable def calcR : Boundary ℝ where
  call name args :=
    match name, args with
    | "add", [.scalar a, .scalar b] => some (.scalar (a + b))
    | "subtract", [.scalar a, .scalar b] => some (.scalar (a - b))
    | "multiply", [.scalar a, .scalar b] => some (.scalar (a * b))
    | "divide", [.scalar a, .scalar b] => some (.scalar (a / b))
    | "power", [.scalar a, .scalar b] => some (.scalar (Real.rpow a b))
    | "sqrt", [.scalar a] => some (.scalar (Real.sqrt a))
    | "greater_than", [.scalar a, .scalar b] => some (.bool (decide (b < a)))
    | _, _ => none
  isZero a := decide (a = 0)

/-- Transcribed from cookbook/calculator.ipynb: the tree for
sqrt( ( 25 + 10 ) * 4 ) + 3^2 - 8, whose printed wire rendering is
subtract_1(add_1(sqrt_1(multiply_1(add_2(25,10),4)), power_1(3,2)), 8). -/
noncomputable def tree9 : Arena ℝ where
  nodes :=
    [ (1, .value ("a") (some (.scalar 25)))
    , (2, .value ("b") (some (.scalar 10)))
    , (3, .func ("add") [1, 2])
    , (4, .value ("b") (some (.scalar 4)))
    , (5, .func ("multiply") [3, 4])
    , (6, .func ("sqrt") [5])
    , (7, .value ("a") (some (.scalar 3)))
    , (8, .value ("b") (some (.scalar 2)))
    , (9, .func ("power") [7, 8])
    , (10, .func ("add") [6, 9])
    , (11, .value ("b") (some (.scalar 8)))
    , (12, .func ("subtract") [10, 11]) ]
  root := 12

/-- The tool-invocation log of one evaluation pass over the arithmetic
tree, innermost call first. -/
noncomputable def log9 : List (ToolCall ℝ) :=
  [ ⟨("add"), [.scalar 25, .scalar 10]⟩
  , ⟨("multiply"), [.scalar (25 + 10), .scalar 4]⟩
  , ⟨("sqrt"), [.scalar ((25 + 10) * 4)]⟩
  , ⟨("power"), [.scalar 3, .scalar 2]⟩
  , ⟨("add"), [.scalar (Real.sqrt ((25 + 10) * 4)), .scalar (Real.rpow 3 2)]⟩
  , ⟨("subtract"), [.scalar (Real.sqrt ((25 + 10) * 4) + Real.rpow 3 2), .scalar 8]⟩ ]

/-- C9: evaluating the tree for sqrt(multiply(add(25,10),4)) + power(3,2)
- 8 with the standard arithmetic tools yields a scalar within an absolute
tolerance of one billionth of 12.83215956619923. -/
theorem c9_arithmetic_tolerance :
    evaluate tree9 calcR
      = .ok (.scalar (Real.sqrt ((25 + 10) * 4) + Real.rpow 3 2 - 8), log9) ∧
    |Real.sqrt ((25 + 10) * 4) + Real.rpow 3 2 - 8 - 1283215956619923 / 10 ^ 14|
      ≤ 1 / 10 ^ 9 := by
  refine ⟨rfl, ?_⟩
  have h140 : ((25:ℝ) + 10) * 4 = 140 := by norm_num
  have hrp : Real.rpow (3:ℝ) 2 = 9 := by
    have h2 : Real.rpow (3:ℝ) 2 = (3:ℝ) ^ (2:ℕ) := by
      rw [show ((2:ℝ)) = ((2:ℕ):ℝ) by norm_num]
      exact Real.rpow_natCast 3 2
    rw [h2]
    norm_num
  rw [h140, hrp]
  have hub : Real.sqrt 140 ≤ 11.8321595663 := by
    have hle : (140:ℝ) ≤ 11.8321595663 ^ 2 := by norm_num
    calc Real.sqrt 140 ≤ Real.sqrt (11.8321595663 ^ 2) := Real.sqrt_le_sqrt hle
    _ = 11.8321595663 := Real.sqrt_sq (by norm_num)
  have hlb : (11.8321595661:ℝ) ≤ Real.sqrt 140 := by
    have hle : ((11.8321595661:ℝ)) ^ 2 ≤ 140 := by norm_num
    calc (11.8321595661:ℝ) = Real.sqrt (11.8321595661 ^ 2) := (Real.sqrt_sq (by norm_num)).symm
    _ ≤ Real.sqrt 140 := Real.sqrt_le_sqrt hle
  rw [abs_le]
  constructor <;> linarith

/-- Cache-free left-to-right evaluation of a sibling list. -/
def nlist (nev : Nat → Except EvalErr (Val α)) : List Nat → Except EvalErr (List (Val α))
| [] => .ok []
| i :: is => do
  let v ← nev i
  let vs ← nlist nev is
  .ok (v :: vs)

/-- Cache-free element-wise application for Map. -/
def napp (app : Val α → Except EvalErr (Val α)) : List (Val α) → Except EvalErr (List (Val α))
| [] => .ok []
| e :: es => do
  let v ← app e
  let vs ← napp app es
  .ok (v :: vs)

/-- Cache-free element-wise application for Filter. -/
def nkeep (app : Val α → Except EvalErr (Val α)) (tv : Val α → Bool) :
    List (Val α) → Except EvalErr (List (Val α))
| [] => .ok []
| e :: es => do
  let v ← app e
  let vs ← nkeep app tv es
  .ok (if tv v then e :: vs else vs)

/-- Cache-free left fold for Reduce. -/
def nfold (app2 : Val α → Val α → Except EvalErr (Val α)) :
    Val α → List (Val α) → Except EvalErr (Val α)
| acc, [] => .ok acc
| acc, e :: es => do
  let v ← app2 acc e
  nfold app2 v es

/-- The cache-free reference evaluator: the same algorithm as the memoized
evaluator of section 4.3 but with no memo cache at all, used as the
specification that memoization must not change computed values. -/
def neval : Nat → Arena α → Boundary α → List (String × Val α) → Nat → Except EvalErr (Val α)
| 0, _, _, _, _ => .error .fuel
| f + 1, t, B, env, id =>
  match t.nodes.lookup id with
  | none => .error (.badShape id)
  | some n =>
    match n with
    | .value name val =>
      match val with
      | some v => .ok v
      | none =>
        match env.lookup name with
        | some v => .ok v
        | none => .error (.unbound name id)
    | .func name args => do
      let vs ← nlist (fun i => neval f t B env i) args
      asCall name id (B.call name vs)
    | .lam ps body => .ok (.closure ps body)
    | .nmap fn it => do
      let v1 ← neval f t B env fn
      let pb ← asClosure1 id v1
      let v2 ← neval f t B env it
      let elems ← asArr id v2
      let vs ← napp (fun e => neval f t B [(pb.1, e)] pb.2) elems
      .ok (.arr vs)
    | .nfilter fn it => do
      let v1 ← neval f t B env fn
      let pb ← asClosure1 id v1
      let v2 ← neval f t B env it
      let elems ← asArr id v2
      let vs ← nkeep (fun e => neval f t B [(pb.1, e)] pb.2) (Val.truthy B.isZero) elems
      .ok (.arr vs)
    | .nreduce fn it init => do
      let v1 ← neval f t B env fn
      let pq ← asClosure2 id v1
      let v2 ← neval f t B env it
      let elems ← asArr id v2
      let v3 ← neval f t B env init
      nfold (fun a e => neval f t B [(pq.1, a), (pq.2.1, e)] pq.2.2) v3 elems
    | .cond p c a => do
      let v1 ← neval f t B env p
      if v1.truthy B.isZero then neval f t B env c
      else neval f t B env a
    | .program body =>
      match body with
      | [] => .error (.badShape id)
      | _ => do
        let vs ← nlist (fun i => neval f t B env i) body
        asLast id vs

/-- Inversion of a successful Except bind. -/
theorem except_bind_eq_ok {ε β γ : Type} {x : Except ε β} {k : β → Except ε γ} {r : γ}
    (h : (x >>= k) = .ok r) : ∃ b, x = .ok b ∧ k b = .ok r := by
  cases x with
  | error e => exact absurd h (by simp [Bind.bind, Except.bind])
  | ok b => exact ⟨b, rfl, h⟩

/-- Success of a sibling-list evaluation transfers along pointwise success
preservation of the node evaluator. -/
theorem nlist_mono_of {nev1 nev2 : Nat → Except EvalErr (Val α)}
    (hmono : ∀ i v, nev1 i = .ok v → nev2 i = .ok v) :
    ∀ ids vs, nlist nev1 ids = .ok vs → nlist nev2 ids = .ok vs := by
  intro ids
  induction ids with
  | nil => intro vs h; exact h
  | cons i is ih =>
    intro vs h
    rw [nlist] at h ⊢
    obtain ⟨b, hb, h2⟩ := except_bind_eq_ok h
    obtain ⟨bs, hbs, h3⟩ := except_bind_eq_ok h2
    rw [hmono i b hb, except_bind_ok, ih bs hbs, except_bind_ok]
    exact h3

/-- Success of a Map application list transfers along pointwise success
preservation of the application. -/
theorem napp_mono_of {app1 app2 : Val α → Except EvalErr (Val α)}
    (hmono : ∀ e v, app1 e = .ok v → app2 e = .ok v) :
    ∀ elems vs, napp app1 elems = .ok vs → napp app2 elems = .ok vs := by
  intro elems
  induction elems with
  | nil => intro vs h; exact h
  | cons e es ih =>
    intro vs h
    rw [napp] at h ⊢
    obtain ⟨b, hb, h2⟩ := except_bind_eq_ok h
    obtain ⟨bs, hbs, h3⟩ := except_bind_eq_ok h2
    rw [hmono e b hb, except_bind_ok, ih bs hbs, except_bind_ok]
    exact h3

/-- Success of a Filter application list transfers along pointwise success
preservation of the application. -/
theorem nkeep_mono_of {app1 app2 : Val α → Except EvalErr (Val α)} {tv : Val α → Bool}
    (hmono : ∀ e v, app1 e = .ok v → app2 e = .ok v) :
    ∀ elems vs, nkeep app1 tv elems = .ok vs → nkeep app2 tv elems = .ok vs := by
  intro elems
  induction elems with
  | nil => intro vs h; exact h
  | cons e es ih =>
    intro vs h
    rw [nkeep] at h ⊢
    obtain ⟨b, hb, h2⟩ := except_bind_eq_ok h
    obtain ⟨bs, hbs, h3⟩ := except_bind_eq_ok h2
    rw [hmono e b hb, except_bind_ok, ih bs hbs, except_bind_ok]
    exact h3

/-- Success of a Reduce fold transfers along pointwise success preservation
of the binary application. -/
theorem nfold_mono_of {app1 app2 : Val α → Val α → Except EvalErr (Val α)}
    (hmono : ∀ a e v, app1 a e = .ok v → app2 a e = .ok v) :
    ∀ elems acc v, nfold app1 acc elems = .ok v → nfold app2 acc elems = .ok v := by
  intro elems
  induction elems with
  | nil => intro acc v h; exact h
  | cons e es ih =>
    intro acc v h
    rw [nfold] at h ⊢
    obtain ⟨b, hb, h2⟩ := except_bind_eq_ok h
    rw [hmono acc e b hb, except_bind_ok]
    exact ih b v h2


/-- One-step unfolding of the reference evaluator at a Value node. -/
theorem neval_at_value {t : Arena α} {id : Nat} {name : String} {val : Option (Val α)}
    (f : Nat) (B : Boundary α) (env : List (String × Val α))
    (hn : t.nodes.lookup id = some (.value name val)) :
    neval (f + 1) t B env id =
      (match val with
       | some v => .ok v
       | none =>
         match env.lookup name with
         | some v => .ok v
         | none => .error (.unbound name id)) := by
  rw [neval]
  simp only [hn]
  cases val <;> rfl

/-- One-step unfolding of the reference evaluator at a Function node. -/
theorem neval_at_func {t : Arena α} {id : Nat} {name : String} {args : List Nat}
    (f : Nat) (B : Boundary α) (env : List (String × Val α))
    (hn : t.nodes.lookup id = some (.func name args)) :
    neval (f + 1) t B env id = (do
      let vs ← nlist (fun i => neval f t B env i) args
      asCall name id (B.call name vs)) := by
  rw [neval]
  simp only [hn]

/-- One-step unfolding of the reference evaluator at a Lambda node. -/
theorem neval_at_lam {t : Arena α} {id : Nat} {ps : List String} {body : Nat}
    (f : Nat) (B : Boundary α) (env : List (String × Val α))
    (hn : t.nodes.lookup id = some (.lam ps body)) :
    neval (f + 1) t B env id = .ok (.closure ps body) := by
  rw [neval]
  simp only [hn]

/-- One-step unfolding of the reference evaluator at a Map node. -/
theorem neval_at_nmap {t : Arena α} {id fn it : Nat}
    (f : Nat) (B : Boundary α) (env : List (String × Val α))
    (hn : t.nodes.lookup id = some (.nmap fn it)) :
    neval (f + 1) t B env id = (do
      let v1 ← neval f t B env fn
      let pb ← asClosure1 id v1
      let v2 ← neval f t B env it
      let elems ← asArr id v2
      let vs ← napp (fun e => neval f t B [(pb.1, e)] pb.2) elems
      .ok (.arr vs)) := by
  rw [neval]
  simp only [hn]

/-- One-step unfolding of the reference evaluator at a Filter node. -/
theorem neval_at_nfilter {t : Arena α} {id fn it : Nat}
    (f : Nat) (B : Boundary α) (env : List (String × Val α))
    (hn : t.nodes.lookup id = some (.nfilter fn it)) :
    neval (f + 1) t B env id = (do
      let v1 ← neval f t B env fn
      let pb ← asClosure1 id v1
      let v2 ← neval f t B env it
      let elems ← asArr id v2
      let vs ← nkeep (fun e => neval f t B [(pb.1, e)] pb.2) (Val.truthy B.isZero) elems
      .ok (.arr vs)) := by
  rw [neval]
  simp only [hn]

/-- One-step unfolding of the reference evaluator at a Reduce node. -/
theorem neval_at_nreduce {t : Arena α} {id fn it init : Nat}
    (f : Nat) (B : Boundary α) (env : List (String × Val α))
    (hn : t.nodes.lookup id = some (.nreduce fn it init)) :
    neval (f + 1) t B env id = (do
      let v1 ← neval f t B env fn
      let pq ← asClosure2 id v1
      let v2 ← neval f t B env it
      let elems ← asArr id v2
      let v3 ← neval f t B env init
      nfold (fun a e => neval f t B [(pq.1, a), (pq.2.1, e)] pq.2.2) v3 elems) := by
  rw [neval]
  simp only [hn]

/-- One-step unfolding of the reference evaluator at a Conditional node. -/
theorem neval_at_cond {t : Arena α} {id p c a : Nat}
    (f : Nat) (B : Boundary α) (env : List (String × Val α))
    (hn : t.nodes.lookup id = some (.cond p c a)) :
    neval (f + 1) t B env id = (do
      let v1 ← neval f t B env p
      if v1.truthy B.isZero then neval f t B env c
      else neval f t B env a) := by
  rw [neval]
  simp only [hn]

/-- One-step unfolding of the reference evaluator at a Program node. -/
theorem neval_at_program {t : Arena α} {id : Nat} {body : List Nat}
    (f : Nat) (B : Boundary α) (env : List (String × Val α))
    (hn : t.nodes.lookup id = some (.program body)) :
    neval (f + 1) t B env id =
      (match body with
       | [] => .error (.badShape id)
       | _ => do
         let vs ← nlist (fun i => neval f t B env i) body
         asLast id vs) := by
  rw [neval]
  simp only [hn]
  cases body <;> rfl

/-- Success of the reference evaluator is preserved by one more unit of
fuel, with the same value. -/
theorem neval_mono : ∀ (f : Nat) (t : Arena α) (B : Boundary α) env id v,
    neval f t B env id = .ok v → neval (f + 1) t B env id = .ok v := by
  intro f
  induction f with
  | zero => intro t B env id v h; simp [neval] at h
  | succ f ih =>
    intro t B env id v h
    cases hn : t.nodes.lookup id with
    | none =>
      rw [neval] at h
      simp only [hn] at h
      exact absurd h (by simp)
    | some n =>
      cases n with
      | value name val =>
        rw [neval_at_value f B env hn] at h
        rw [neval_at_value (f + 1) B env hn]
        exact h
      | func name args =>
        rw [neval_at_func f B env hn] at h
        rw [neval_at_func (f + 1) B env hn]
        obtain ⟨vs, hvs, h2⟩ := except_bind_eq_ok h
        rw [nlist_mono_of (fun i u hu => ih t B env i u hu) args vs hvs, except_bind_ok]
        exact h2
      | lam ps body =>
        rw [neval_at_lam (f + 1) B env hn]
        rw [neval_at_lam f B env hn] at h
        exact h
      | nmap fn it =>
        rw [neval_at_nmap f B env hn] at h
        rw [neval_at_nmap (f + 1) B env hn]
        obtain ⟨v1, h1, h⟩ := except_bind_eq_ok h
        obtain ⟨pb, hpb, h⟩ := except_bind_eq_ok h
        obtain ⟨v2, h2, h⟩ := except_bind_eq_ok h
        obtain ⟨elems, hel, h⟩ := except_bind_eq_ok h
        obtain ⟨vs, hvs, h⟩ := except_bind_eq_ok h
        rw [ih t B env fn v1 h1, except_bind_ok, hpb, except_bind_ok,
          ih t B env it v2 h2, except_bind_ok, hel, except_bind_ok,
          napp_mono_of (fun e u hu => ih t B [(pb.1, e)] pb.2 u hu) elems vs hvs,
          except_bind_ok]
        exact h
      | nfilter fn it =>
        rw [neval_at_nfilter f B env hn] at h
        rw [neval_at_nfilter (f + 1) B env hn]
        obtain ⟨v1, h1, h⟩ := except_bind_eq_ok h
        obtain ⟨pb, hpb, h⟩ := except_bind_eq_ok h
        obtain ⟨v2, h2, h⟩ := except_bind_eq_ok h
        obtain ⟨elems, hel, h⟩ := except_bind_eq_ok h
        obtain ⟨vs, hvs, h⟩ := except_bind_eq_ok h
        rw [ih t B env fn v1 h1, except_bind_ok, hpb, except_bind_ok,
          ih t B env it v2 h2, except_bind_ok, hel, except_bind_ok,
          nkeep_mono_of (fun e u hu => ih t B [(pb.1, e)] pb.2 u hu) elems vs hvs,
          except_bind_ok]
        exact h
      | nreduce fn it init =>
        rw [neval_at_nreduce f B env hn] at h
        rw [neval_at_nreduce (f + 1) B env hn]
        obtain ⟨v1, h1, h⟩ := except_bind_eq_ok h
        obtain ⟨pq, hpq, h⟩ := except_bind_eq_ok h
        obtain ⟨v2, h2, h⟩ := except_bind_eq_ok h
        obtain ⟨elems, hel, h⟩ := except_bind_eq_ok h
        obtain ⟨v3, h3, h⟩ := except_bind_eq_ok h
        rw [ih t B env fn v1 h1, except_bind_ok, hpq, except_bind_ok,
          ih t B env it v2 h2, except_bind_ok, hel, except_bind_ok,
          ih t B env init v3 h3, except_bind_ok]
        exact nfold_mono_of (fun a e u hu => ih t B [(pq.1, a), (pq.2.1, e)] pq.2.2 u hu)
          elems v3 v h
      | cond p c a =>
        rw [neval_at_cond f B env hn] at h
        rw [neval_at_cond (f + 1) B env hn]
        obtain ⟨v1, h1, h2⟩ := except_bind_eq_ok h
        rw [ih t B env p v1 h1, except_bind_ok]
        by_cases htr : v1.truthy B.isZero = true
        · rw [if_pos htr] at h2 ⊢
          exact ih t B env c v h2
        · rw [if_neg htr] at h2 ⊢
          exact ih t B env a v h2
      | program body =>
        rw [neval_at_program f B env hn] at h
        rw [neval_at_program (f + 1) B env hn]
        cases body with
        | nil => exact h
        | cons b bs =>
          obtain ⟨vs, hvs, h2⟩ := except_bind_eq_ok h
          rw [nlist_mono_of (fun i u hu => ih t B env i u hu) (b :: bs) vs hvs, except_bind_ok]
          exact h2

/-- Success of the reference evaluator is preserved by any larger fuel. -/
theorem neval_le_mono {g g2 : Nat} (hle : g ≤ g2) (t : Arena α) (B : Boundary α)
    (env : List (String × Val α)) (id : Nat) (v : Val α)
    (h : neval g t B env id = .ok v) : neval g2 t B env id = .ok v := by
  induction g2, hle using Nat.le_induction with
  | base => exact h
  | succ g2 hle2 ih => exact neval_mono g2 t B env id v ih

/-- One-step unfolding of the reference evaluator at a nonempty Program. -/
theorem neval_at_program2 {t : Arena α} {id b : Nat} {bs : List Nat}
    (f : Nat) (B : Boundary α) (env : List (String × Val α))
    (hn : t.nodes.lookup id = some (.program (b :: bs))) :
    neval (f + 1) t B env id = (do
      let vs ← nlist (fun i => neval f t B env i) (b :: bs)
      asLast id vs) := by
  rw [neval]
  simp only [hn]

/-- Correctness of a memo cache with respect to the reference evaluator:
every cached value is the value the cache-free evaluator computes for that
node under the same environment. -/
def MemoSound (t : Arena α) (B : Boundary α) (env : List (String × Val α))
    (m : List (Nat × Val α)) : Prop :=
  ∀ i v, m.lookup i = some v → ∃ g, neval g t B env i = .ok v

/-- The empty cache is correct. -/
theorem memoSound_nil {t : Arena α} {B : Boundary α} {env : List (String × Val α)} :
    MemoSound t B env [] := by
  intro i v h
  simp [List.lookup] at h

/-- Extending a correct cache with a correct entry keeps it correct. -/
theorem memoSound_cons {t : Arena α} {B : Boundary α} {env : List (String × Val α)}
    {m : List (Nat × Val α)} {id : Nat} {v : Val α}
    (hs : MemoSound t B env m) (hv : ∃ g, neval g t B env id = .ok v) :
    MemoSound t B env ((id, v) :: m) := by
  intro i u h
  by_cases hi : i = id
  · subst hi
    simp [List.lookup] at h
    exact h ▸ hv
  · have hb : (i == id) = false := beq_eq_false_iff_ne.mpr hi
    simp [List.lookup, hb] at h
    exact hs i u h

/-- The soundness statement for one fuel level: a successful memoized
evaluation from a correct cache leaves a correct cache and computes the
value of the cache-free reference evaluator. -/
def SoundStep (f : Nat) (t : Arena α) (B : Boundary α) : Prop :=
  ∀ env id m r, MemoSound t B env m → meval f t B env id m = .ok r →
    MemoSound t B env r.memo ∧ ∃ g, neval g t B env id = .ok r.val

/-- Soundness transfers to sibling lists, with one reference fuel bound for
the whole list. -/
theorem mlist_sound {f : Nat} {t : Arena α} {B : Boundary α} (hev : SoundStep f t B) :
    ∀ env ids m rs, MemoSound t B env m →
      mlist (fun i mm => meval f t B env i mm) ids m = .ok rs →
      MemoSound t B env rs.memo ∧
        ∃ g, nlist (fun i => neval g t B env i) ids = .ok rs.vals := by
  intro env ids
  induction ids with
  | nil =>
    intro m rs hm h
    rw [mlist] at h
    cases h
    exact ⟨hm, 0, rfl⟩
  | cons i is ih =>
    intro m rs hm h
    rw [mlist] at h
    obtain ⟨r, hr, h⟩ := except_bind_eq_ok h
    obtain ⟨rs2, hrs2, h⟩ := except_bind_eq_ok h
    obtain ⟨hm1, g1, hg1⟩ := hev env i m r hm hr
    obtain ⟨hm2, g2, hg2⟩ := ih r.memo rs2 hm1 hrs2
    cases h
    refine ⟨hm2, max g1 g2, ?_⟩
    rw [nlist, neval_le_mono (le_max_left g1 g2) t B env i r.val hg1, except_bind_ok,
      nlist_mono_of (fun i2 u hu => neval_le_mono (le_max_right g1 g2) t B env i2 u hu)
        is rs2.vals hg2, except_bind_ok]

/-- Soundness transfers to Map application lists. -/
theorem mapp_sound {f : Nat} {t : Arena α} {B : Boundary α} (hev : SoundStep f t B)
    (p : String) (body : Nat) :
    ∀ elems rs, mapp (fun e => meval f t B [(p, e)] body []) elems = .ok rs →
      ∃ g, napp (fun e => neval g t B [(p, e)] body) elems = .ok rs.1 := by
  intro elems
  induction elems with
  | nil =>
    intro rs h
    cases h
    exact ⟨0, rfl⟩
  | cons e es ih =>
    intro rs h
    rw [mapp] at h
    obtain ⟨r, hr, h⟩ := except_bind_eq_ok h
    obtain ⟨rs2, hrs2, h⟩ := except_bind_eq_ok h
    obtain ⟨_, g1, hg1⟩ := hev [(p, e)] body [] r memoSound_nil hr
    obtain ⟨g2, hg2⟩ := ih rs2 hrs2
    cases h
    refine ⟨max g1 g2, ?_⟩
    rw [napp, neval_le_mono (le_max_left g1 g2) t B [(p, e)] body r.val hg1, except_bind_ok,
      napp_mono_of (fun e2 u hu => neval_le_mono (le_max_right g1 g2) t B [(p, e2)] body u hu)
        es rs2.1 hg2, except_bind_ok]

/-- Soundness transfers to Filter application lists. -/
theorem mkeep_sound {f : Nat} {t : Arena α} {B : Boundary α} (hev : SoundStep f t B)
    (p : String) (body : Nat) :
    ∀ elems rs, mkeep (fun e => meval f t B [(p, e)] body []) (Val.truthy B.isZero) elems = .ok rs →
      ∃ g, nkeep (fun e => neval g t B [(p, e)] body) (Val.truthy B.isZero) elems = .ok rs.1 := by
  intro elems
  induction elems with
  | nil =>
    intro rs h
    cases h
    exact ⟨0, rfl⟩
  | cons e es ih =>
    intro rs h
    rw [mkeep] at h
    obtain ⟨r, hr, h⟩ := except_bind_eq_ok h
    obtain ⟨rs2, hrs2, h⟩ := except_bind_eq_ok h
    obtain ⟨_, g1, hg1⟩ := hev [(p, e)] body [] r memoSound_nil hr
    obtain ⟨g2, hg2⟩ := ih rs2 hrs2
    cases h
    refine ⟨max g1 g2, ?_⟩
    rw [nkeep, neval_le_mono (le_max_left g1 g2) t B [(p, e)] body r.val hg1, except_bind_ok,
      nkeep_mono_of (fun e2 u hu => neval_le_mono (le_max_right g1 g2) t B [(p, e2)] body u hu)
        es rs2.1 hg2, except_bind_ok]

/-- Soundness transfers to Reduce folds. -/
theorem mfold_sound {f : Nat} {t : Arena α} {B : Boundary α} (hev : SoundStep f t B)
    (p q : String) (body : Nat) :
    ∀ elems acc rs,
      mfold (fun a e => meval f t B [(p, a), (q, e)] body []) acc elems = .ok rs →
      ∃ g, nfold (fun a e => neval g t B [(p, a), (q, e)] body) acc elems = .ok rs.1 := by
  intro elems
  induction elems with
  | nil =>
    intro acc rs h
    cases h
    exact ⟨0, rfl⟩
  | cons e es ih =>
    intro acc rs h
    rw [mfold] at h
    obtain ⟨r, hr, h⟩ := except_bind_eq_ok h
    obtain ⟨rs2, hrs2, h⟩ := except_bind_eq_ok h
    obtain ⟨_, g1, hg1⟩ := hev [(p, acc), (q, e)] body [] r memoSound_nil hr
    obtain ⟨g2, hg2⟩ := ih r.val rs2 hrs2
    cases h
    refine ⟨max g1 g2, ?_⟩
    rw [nfold, neval_le_mono (le_max_left g1 g2) t B [(p, acc), (q, e)] body r.val hg1,
      except_bind_ok]
    exact nfold_mono_of
      (fun a e2 u hu => neval_le_mono (le_max_right g1 g2) t B [(p, a), (q, e2)] body u hu)
      es r.val rs2.1 hg2

/-- Soundness of the per-node core computation: from a correct cache it
leaves a correct cache and computes the reference value. -/
theorem mevalCore_sound (f : Nat) (t : Arena α) (B : Boundary α) (hev : SoundStep f t B) :
    ∀ env id n m r, MemoSound t B env m → t.nodes.lookup id = some n →
      mevalCore (fun env2 i mm => meval f t B env2 i mm) B env id n m = .ok r →
      MemoSound t B env r.memo ∧ ∃ g, neval (g + 1) t B env id = .ok r.val := by
  intro env id n m r hm hn h
  cases n with
  | value name val =>
    cases val with
    | some v =>
      simp only [mevalCore] at h
      cases h
      refine ⟨hm, 0, ?_⟩
      rw [neval_at_value 0 B env hn]
    | none =>
      simp only [mevalCore] at h
      cases hel : env.lookup name with
      | some v =>
        rw [hel] at h
        cases h
        refine ⟨hm, 0, ?_⟩
        rw [neval_at_value 0 B env hn, hel]
      | none =>
        rw [hel] at h
        exact absurd h (by simp)
  | func name args =>
    simp only [mevalCore] at h
    obtain ⟨rs, hrs, h⟩ := except_bind_eq_ok h
    obtain ⟨v, hv, h⟩ := except_bind_eq_ok h
    obtain ⟨hm1, g1, hg1⟩ := mlist_sound hev env args m rs hm hrs
    cases h
    refine ⟨hm1, g1, ?_⟩
    rw [neval_at_func g1 B env hn, hg1, except_bind_ok]
    exact hv
  | lam ps body =>
    simp only [mevalCore] at h
    cases h
    refine ⟨hm, 0, ?_⟩
    rw [neval_at_lam 0 B env hn]
  | nmap fn it =>
    simp only [mevalCore] at h
    obtain ⟨r1, h1, h⟩ := except_bind_eq_ok h
    obtain ⟨pb, hpb, h⟩ := except_bind_eq_ok h
    obtain ⟨r2, h2, h⟩ := except_bind_eq_ok h
    obtain ⟨elems, hel, h⟩ := except_bind_eq_ok h
    obtain ⟨rs, hrs, h⟩ := except_bind_eq_ok h
    obtain ⟨hm1, g1, hg1⟩ := hev env fn m r1 hm h1
    obtain ⟨hm2, g2, hg2⟩ := hev env it r1.memo r2 hm1 h2
    obtain ⟨g3, hg3⟩ := mapp_sound hev pb.1 pb.2 elems rs hrs
    cases h
    refine ⟨hm2, max g1 (max g2 g3), ?_⟩
    rw [neval_at_nmap (max g1 (max g2 g3)) B env hn,
      neval_le_mono (le_max_left g1 (max g2 g3)) t B env fn r1.val hg1, except_bind_ok,
      hpb, except_bind_ok,
      neval_le_mono (le_trans (le_max_left g2 g3) (le_max_right g1 (max g2 g3)))
        t B env it r2.val hg2, except_bind_ok,
      hel, except_bind_ok,
      napp_mono_of (fun e2 u hu =>
        neval_le_mono (le_trans (le_max_right g2 g3) (le_max_right g1 (max g2 g3)))
          t B [(pb.1, e2)] pb.2 u hu) elems rs.1 hg3, except_bind_ok]
  | nfilter fn it =>
    simp only [mevalCore] at h
    obtain ⟨r1, h1, h⟩ := except_bind_eq_ok h
    obtain ⟨pb, hpb, h⟩ := except_bind_eq_ok h
    obtain ⟨r2, h2, h⟩ := except_bind_eq_ok h
    obtain ⟨elems, hel, h⟩ := except_bind_eq_ok h
    obtain ⟨rs, hrs, h⟩ := except_bind_eq_ok h
    obtain ⟨hm1, g1, hg1⟩ := hev env fn m r1 hm h1
    obtain ⟨hm2, g2, hg2⟩ := hev env it r1.memo r2 hm1 h2
    obtain ⟨g3, hg3⟩ := mkeep_sound hev pb.1 pb.2 elems rs hrs
    cases h
    refine ⟨hm2, max g1 (max g2 g3), ?_⟩
    rw [neval_at_nfilter (max g1 (max g2 g3)) B env hn,
      neval_le_mono (le_max_left g1 (max g2 g3)) t B env fn r1.val hg1, except_bind_ok,
      hpb, except_bind_ok,
      neval_le_mono (le_trans (le_max_left g2 g3) (le_max_right g1 (max g2 g3)))
        t B env it r2.val hg2, except_bind_ok,
      hel, except_bind_ok,
      nkeep_mono_of (fun e2 u hu =>
        neval_le_mono (le_trans (le_max_right g2 g3) (le_max_right g1 (max g2 g3)))
          t B [(pb.1, e2)] pb.2 u hu) elems rs.1 hg3, except_bind_ok]
  | nreduce fn it init =>
    simp only [mevalCore] at h
    obtain ⟨r1, h1, h⟩ := except_bind_eq_ok h
    obtain ⟨pq, hpq, h⟩ := except_bind_eq_ok h
    obtain ⟨r2, h2, h⟩ := except_bind_eq_ok h
    obtain ⟨elems, hel, h⟩ := except_bind_eq_ok h
    obtain ⟨r3, h3, h⟩ := except_bind_eq_ok h
    obtain ⟨rs, hrs, h⟩ := except_bind_eq_ok h
    obtain ⟨hm1, g1, hg1⟩ := hev env fn m r1 hm h1
    obtain ⟨hm2, g2, hg2⟩ := hev env it r1.memo r2 hm1 h2
    obtain ⟨hm3, g3, hg3⟩ := hev env init r2.memo r3 hm2 h3
    obtain ⟨g4, hg4⟩ := mfold_sound hev pq.1 pq.2.1 pq.2.2 elems r3.val rs hrs
    cases h
    refine ⟨hm3, max (max g1 g2) (max g3 g4), ?_⟩
    rw [neval_at_nreduce (max (max g1 g2) (max g3 g4)) B env hn,
      neval_le_mono (le_trans (le_max_left g1 g2) (le_max_left (max g1 g2) (max g3 g4)))
        t B env fn r1.val hg1, except_bind_ok,
      hpq, except_bind_ok,
      neval_le_mono (le_trans (le_max_right g1 g2) (le_max_left (max g1 g2) (max g3 g4)))
        t B env it r2.val hg2, except_bind_ok,
      hel, except_bind_ok,
      neval_le_mono (le_trans (le_max_left g3 g4) (le_max_right (max g1 g2) (max g3 g4)))
        t B env init r3.val hg3, except_bind_ok]
    exact nfold_mono_of (fun a e2 u hu =>
      neval_le_mono (le_trans (le_max_right g3 g4) (le_max_right (max g1 g2) (max g3 g4)))
        t B [(pq.1, a), (pq.2.1, e2)] pq.2.2 u hu) elems r3.val rs.1 hg4
  | cond p c a =>
    simp only [mevalCore] at h
    obtain ⟨r1, h1, h⟩ := except_bind_eq_ok h
    obtain ⟨hm1, g1, hg1⟩ := hev env p m r1 hm h1
    by_cases htr : r1.val.truthy B.isZero = true
    · rw [if_pos htr] at h
      obtain ⟨r2, h2, h⟩ := except_bind_eq_ok h
      obtain ⟨hm2, g2, hg2⟩ := hev env c r1.memo r2 hm1 h2
      cases h
      refine ⟨hm2, max g1 g2, ?_⟩
      rw [neval_at_cond (max g1 g2) B env hn,
        neval_le_mono (le_max_left g1 g2) t B env p r1.val hg1, except_bind_ok, if_pos htr]
      exact neval_le_mono (le_max_right g1 g2) t B env c r2.val hg2
    · rw [if_neg htr] at h
      obtain ⟨r2, h2, h⟩ := except_bind_eq_ok h
      obtain ⟨hm2, g2, hg2⟩ := hev env a r1.memo r2 hm1 h2
      cases h
      refine ⟨hm2, max g1 g2, ?_⟩
      rw [neval_at_cond (max g1 g2) B env hn,
        neval_le_mono (le_max_left g1 g2) t B env p r1.val hg1, except_bind_ok, if_neg htr]
      exact neval_le_mono (le_max_right g1 g2) t B env a r2.val hg2
  | program body =>
    cases body with
    | nil =>
      simp only [mevalCore] at h
      exact absurd h (by simp)
    | cons b bs =>
      simp only [mevalCore] at h
      obtain ⟨rs, hrs, h⟩ := except_bind_eq_ok h
      obtain ⟨v, hv, h⟩ := except_bind_eq_ok h
      obtain ⟨hm1, g1, hg1⟩ := mlist_sound hev env (b :: bs) m rs hm hrs
      cases h
      refine ⟨hm1, g1, ?_⟩
      rw [neval_at_program2 g1 B env hn, hg1, except_bind_ok]
      exact hv

/-- Memoized evaluation is sound with respect to the cache-free reference
evaluator, at every fuel level. -/
theorem meval_sound : ∀ (f : Nat) (t : Arena α) (B : Boundary α), SoundStep f t B := by
  intro f
  induction f with
  | zero =>
    intro t B env id m r hm h
    simp [meval] at h
  | succ f ih =>
    intro t B env id m r hm h
    rw [meval] at h
    cases hml : m.lookup id with
    | some v =>
      simp only [hml] at h
      cases h
      exact ⟨hm, hm id v hml⟩
    | none =>
      simp only [hml] at h
      cases hn : t.nodes.lookup id with
      | none =>
        simp only [hn] at h
        exact absurd h (by simp)
      | some n =>
        simp only [hn] at h
        obtain ⟨r0, h0, hr⟩ := except_map_ok h
        obtain ⟨hms, g, hg⟩ := mevalCore_sound f t B (ih t B) env id n m r0 hm hn h0
        subst hr
        exact ⟨memoSound_cons hms ⟨g + 1, hg⟩, g + 1, hg⟩

/-- C8: the memoized evaluation pass — which by definition of evaluate
starts from its own fresh, empty memo cache — computes exactly the value of
the cache-free reference evaluator. Since evaluate is a pure function of
the tree and the tool boundary, any two evaluation passes over the same
tree with the same pure deterministic boundary yield this same value and
the same call log; the private per-pass cache cannot change the result. -/
theorem c8_memoized_eval_agrees_with_reference :
    ∀ (β : Type) (t : Arena β) (B : Boundary β) (v : Val β) (lg : List (ToolCall β)),
    evaluate t B = .ok (v, lg) → ∃ g, neval g t B [] t.root = .ok v := by
  intro β t B v lg h
  unfold evaluate at h
  obtain ⟨r, hr, heq⟩ := except_map_ok h
  obtain ⟨_, g, hg⟩ := meval_sound (t.nodes.length + 1) t B [] t.root [] r memoSound_nil hr
  have hv : v = r.val := congrArg Prod.fst heq
  exact ⟨g, hv ▸ hg⟩

/-- Witness for C8: the conditional calculator tree evaluates to 93 under
the memoized evaluator, and some reference-evaluator fuel reproduces it. -/
theorem c8_witness : ∃ g, neval g condTree calcQ [] condTree.root = .ok (.scalar 93) :=
  c8_memoized_eval_agrees_with_reference Frac condTree calcQ (.scalar 93) condTreeLog rfl

end Treelang









